import Mathlib

/-!
Shallow embedding of the transactional overlay changeset implemented in
src/primitives/state-machine/src/overlayed_changes/changeset.rs.

Modelling conventions:
* Storage keys and values (opaque byte sequences) are lists of naturals.
* A rust Vec with its top at the end is modelled by a Lean List with the
  top at the end as well (push appends, pop removes the last element),
  except for the vector of dirty key sets, whose innermost set is the
  head of the Lean list (the Vec is only ever accessed through push, pop
  and last, so the orientation is documented rather than observable).
* A BTreeSet of u32 extrinsic indices is a sorted duplicate-free list of
  naturals with ordered insertion.
* A HashSet of dirty keys is a duplicate-free list; its unspecified
  iteration order is modelled as insertion order.
* Every rust `expect`/`assert!` (panic) is modelled by an `Option`
  result: `none` is a panic.  Functions that cannot panic stay total.
-/

abbrev StorageKey := List Nat
abbrev StorageValue := List Nat

/-- Lexicographic (byte-wise) strict order on keys, the order of the
rust BTreeMap over byte vectors. -/
def keyLt : StorageKey → StorageKey → Bool
  | [], [] => false
  | [], _ :: _ => true
  | _ :: _, [] => false
  | a :: as_, b :: bs => if a < b then true else if b < a then false else keyLt as_ bs

/-- Ordered insertion into a sorted duplicate-free list: BTreeSet::insert. -/
def extrInsert (e : Nat) : List Nat → List Nat
  | [] => [e]
  | x :: xs => if e < x then e :: x :: xs else if e = x then x :: xs else x :: extrInsert e xs

/-- BTreeSet::extend — insert every element of the second set. -/
def extrExtend (base : List Nat) (more : List Nat) : List Nat :=
  more.foldl (fun acc e => extrInsert e acc) base

/-- `at_extrinsic.into_iter().collect::<BTreeSet<_>>()`. -/
def extrOf : Option Nat → List Nat
  | none => []
  | some e => [e]

/-- One version of a value: `InnerValue` of the source.  `value = none`
is a deletion tombstone. -/
structure InnerValue where
  value : Option StorageValue
  extrinsics : List Nat
deriving DecidableEq, Repr

/-- The non-empty stack of versions of one key: `OverlayedValue`.
The last list element is the most recent version (Vec order). -/
structure OverlayedValue where
  transactions : List InnerValue
deriving DecidableEq, Repr

/-- `Vec::last` on the version stack. -/
def lastOf : List InnerValue → Option InnerValue
  | [] => none
  | [a] => some a
  | _ :: b :: r => lastOf (b :: r)

/-- Apply a function to the last element (a mutation through
`last_mut`); the empty case is unreachable at every use site. -/
def updateLast (f : InnerValue → InnerValue) : List InnerValue → List InnerValue
  | [] => []
  | [a] => [f a]
  | a :: b :: r => a :: updateLast f (b :: r)

/-- `Vec::pop`: the list without its last element, and that element. -/
def popLast : List InnerValue → Option (List InnerValue × InnerValue)
  | [] => none
  | [a] => some ([], a)
  | a :: b :: r => (popLast (b :: r)).map (fun p => (a :: p.1, p.2))

/-- Concatenation of the per-version extrinsic sets, oldest first
(the `flat_map` inside `OverlayedValue::extrinsics`). -/
def flatE : List InnerValue → List Nat
  | [] => []
  | iv :: r => iv.extrinsics ++ flatE r

/-- itertools `unique`: keep the first occurrence of every element. -/
def uniqueFirstAux (seen : List Nat) : List Nat → List Nat
  | [] => []
  | x :: xs => if x ∈ seen then uniqueFirstAux seen xs else x :: uniqueFirstAux (x :: seen) xs

def uniqueFirst (l : List Nat) : List Nat := uniqueFirstAux [] l

/-- `OverlayedValue::extrinsics` — union of the extrinsic indices over
all versions, first occurrence kept. -/
def OverlayedValue.extrinsics (ov : OverlayedValue) : List Nat :=
  uniqueFirst (flatE ov.transactions)

/-- The value seen by the current transaction (`OverlayedValue::value`);
the stack is never empty where the source calls this. -/
def OverlayedValue.valueOpt (ov : OverlayedValue) : Option InnerValue :=
  lastOf ov.transactions

/-- `OverlayedValue::set` — push a fresh version when this is the first
write of the open transaction (or the stack is empty), otherwise
overwrite the top value in place; then record the extrinsic index in the
top version. -/
def OverlayedValue.set (ov : OverlayedValue) (value : Option StorageValue)
    (first_write_in_tx : Bool) (at_extrinsic : Option Nat) : OverlayedValue :=
  let ts := if first_write_in_tx || ov.transactions.isEmpty
    then ov.transactions ++ [⟨value, []⟩]
    else updateLast (fun iv => ⟨value, iv.extrinsics⟩) ov.transactions
  match at_extrinsic with
  | none => ⟨ts⟩
  | some e => ⟨updateLast (fun iv => ⟨iv.value, extrInsert e iv.extrinsics⟩) ts⟩

/-- `insert_dirty` — mark a key dirty in the innermost dirty set.  The
innermost set is the head of the list.  Returns true iff a transaction
is open and this is the first write of the key inside it. -/
def insert_dirty (set : List (List StorageKey)) (key : StorageKey) :
    Bool × List (List StorageKey) :=
  match set with
  | [] => (false, [])
  | top :: rest => if key ∈ top then (false, top :: rest) else (true, (top ++ [key]) :: rest)

/-- First-match lookup in the association list that models the BTreeMap. -/
def lookupList (key : StorageKey) : List (StorageKey × OverlayedValue) → Option OverlayedValue
  | [] => none
  | kv :: rest => if key = kv.1 then some kv.2 else lookupList key rest

/-- Ordered insert-or-replace in the association list (BTreeMap entry
insertion keeps the map sorted by key). -/
def setEntry (key : StorageKey) (v : OverlayedValue) :
    List (StorageKey × OverlayedValue) → List (StorageKey × OverlayedValue)
  | [] => [(key, v)]
  | kv :: rest =>
    if keyLt key kv.1 then (key, v) :: kv :: rest
    else if keyLt kv.1 key then kv :: setEntry key v rest
    else (key, v) :: rest

/-- BTreeMap::remove. -/
def removeKey (key : StorageKey) :
    List (StorageKey × OverlayedValue) → List (StorageKey × OverlayedValue)
  | [] => []
  | kv :: rest => if key = kv.1 then rest else kv :: removeKey key rest

/-- `OverlayedChangeSet` — the ordered map of pending changes plus the
stack of per-transaction dirty key sets (innermost first here). -/
structure OverlayedChangeSet where
  changes : List (StorageKey × OverlayedValue)
  dirty_keys : List (List StorageKey)
deriving DecidableEq, Repr

/-- `OverlayedChangeSet::with_depth`. -/
def OverlayedChangeSet.with_depth (depth : Nat) : OverlayedChangeSet :=
  { changes := [], dirty_keys := List.replicate depth [] }

/-- `OverlayedChangeSet::is_empty`. -/
def OverlayedChangeSet.is_empty (s : OverlayedChangeSet) : Bool :=
  s.changes.isEmpty

/-- `OverlayedChangeSet::get`. -/
def OverlayedChangeSet.get (s : OverlayedChangeSet) (key : StorageKey) :
    Option OverlayedValue :=
  lookupList key s.changes

/-- `OverlayedChangeSet::transaction_depth`. -/
def OverlayedChangeSet.transaction_depth (s : OverlayedChangeSet) : Nat :=
  s.dirty_keys.length

/-- `OverlayedChangeSet::set` — record a write (value or tombstone). -/
def OverlayedChangeSet.set (s : OverlayedChangeSet) (key : StorageKey)
    (value : Option StorageValue) (at_extrinsic : Option Nat) : OverlayedChangeSet :=
  let ov := (lookupList key s.changes).getD ⟨[]⟩
  let fd := insert_dirty s.dirty_keys key
  { changes := setEntry key (ov.set value fd.1 at_extrinsic) s.changes,
    dirty_keys := fd.2 }

/-- `OverlayedChangeSet::modify` — returns the value the mutable
reference points at together with the new state; `none` models the
panic on an empty version stack. -/
def OverlayedChangeSet.modify (s : OverlayedChangeSet) (key : StorageKey)
    (init : StorageValue) (at_extrinsic : Option Nat) :
    Option (Option StorageValue × OverlayedChangeSet) :=
  let ov := match lookupList key s.changes with
    | some ov => ov
    | none => ⟨[⟨some init, extrOf at_extrinsic⟩]⟩
  let fd := insert_dirty s.dirty_keys key
  let step : Option OverlayedValue :=
    if fd.1 then
      match lastOf ov.transactions with
      | none => none
      | some top => some (ov.set top.value true at_extrinsic)
    else some ov
  match step with
  | none => none
  | some ov2 =>
    match lastOf ov2.transactions with
    | none => none
    | some top =>
      some (top.value, { changes := setEntry key ov2 s.changes, dirty_keys := fd.2 })

/-- Loop body of `OverlayedChangeSet::clear`: walk the entries in map
order, tombstoning the ones matched by the predicate and threading the
dirty key stack through. -/
def clearGo (p : StorageKey → OverlayedValue → Bool) (at_extrinsic : Option Nat) :
    List (StorageKey × OverlayedValue) → List (List StorageKey) →
    List (StorageKey × OverlayedValue) × List (List StorageKey)
  | [], dk => ([], dk)
  | kv :: rest, dk =>
    if p kv.1 kv.2 then
      let fd := insert_dirty dk kv.1
      let r := clearGo p at_extrinsic rest fd.2
      ((kv.1, kv.2.set none fd.1 at_extrinsic) :: r.1, r.2)
    else
      let r := clearGo p at_extrinsic rest dk
      (kv :: r.1, r.2)

/-- `OverlayedChangeSet::clear`. -/
def OverlayedChangeSet.clear (s : OverlayedChangeSet)
    (p : StorageKey → OverlayedValue → Bool) (at_extrinsic : Option Nat) :
    OverlayedChangeSet :=
  let r := clearGo p at_extrinsic s.changes s.dirty_keys
  { changes := r.1, dirty_keys := r.2 }

/-- `OverlayedChangeSet::next_change` — first entry of the ordered map
with a key strictly greater than the argument. -/
def OverlayedChangeSet.next_change (s : OverlayedChangeSet) (key : StorageKey) :
    Option (StorageKey × OverlayedValue) :=
  s.changes.find? (fun kv => keyLt key kv.1)

/-- `OverlayedChangeSet::start_transaction`. -/
def OverlayedChangeSet.start_transaction (s : OverlayedChangeSet) : OverlayedChangeSet :=
  { s with dirty_keys := [] :: s.dirty_keys }

/-- Loop of `close_transaction` over the popped dirty set, including the
early `return` executed on the adopt path of a commit, which abandons
the remaining keys of the set. -/
def closeGo (rollback : Bool) : List StorageKey → OverlayedChangeSet → Option OverlayedChangeSet
  | [], s => some s
  | key :: keys, s =>
    match lookupList key s.changes with
    | none => none
    | some value =>
      if rollback then
        match popLast value.transactions with
        | none => none
        | some td =>
          let s2 := if td.1.isEmpty
            then { s with changes := removeKey key s.changes }
            else { s with changes := setEntry key ⟨td.1⟩ s.changes }
          closeGo rollback keys s2
      else
        let pd : Bool × List (List StorageKey) :=
          match s.dirty_keys with
          | parent :: rest => insert_dirty (parent :: rest) key
          | [] => (value.transactions.length == 1, [])
        let s1 : OverlayedChangeSet := { s with dirty_keys := pd.2 }
        if pd.1 then
          some s1
        else
          match popLast value.transactions with
          | none => none
          | some td =>
            match td.1 with
            | [] => none
            | iv :: ivs =>
              let merged : OverlayedValue :=
                ⟨updateLast
                  (fun cur => ⟨td.2.value, extrExtend cur.extrinsics td.2.extrinsics⟩)
                  (iv :: ivs)⟩
              closeGo rollback keys { s1 with changes := setEntry key merged s1.changes }

/-- `OverlayedChangeSet::close_transaction`; `none` is the panic on a
missing open transaction (or a broken inner invariant). -/
def OverlayedChangeSet.close_transaction (s : OverlayedChangeSet) (rollback : Bool) :
    Option OverlayedChangeSet :=
  match s.dirty_keys with
  | [] => none
  | top :: rest => closeGo rollback top { changes := s.changes, dirty_keys := rest }

/-- `OverlayedChangeSet::rollback_transaction`. -/
def OverlayedChangeSet.rollback_transaction (s : OverlayedChangeSet) :
    Option OverlayedChangeSet :=
  s.close_transaction true

/-- `OverlayedChangeSet::commit_transaction`. -/
def OverlayedChangeSet.commit_transaction (s : OverlayedChangeSet) :
    Option OverlayedChangeSet :=
  s.close_transaction false

/-- Element-wise pop of `drain_commited`; `none` is the panic on an
empty version stack. -/
def drainGo : List (StorageKey × OverlayedValue) → Option (List (StorageKey × Option StorageValue))
  | [] => some []
  | kv :: rest =>
    match lastOf kv.2.transactions with
    | none => none
    | some t => (drainGo rest).map (fun r => (kv.1, t.value) :: r)

/-- `OverlayedChangeSet::drain_commited`; `none` is the assertion
failure when a transaction is still open. -/
def OverlayedChangeSet.drain_commited (s : OverlayedChangeSet) :
    Option (List (StorageKey × Option StorageValue)) :=
  if s.transaction_depth == 0 then drainGo s.changes else none

/-- One call of the public mutating interface of the changeset. -/
inductive Op where
  | setOp (key : StorageKey) (value : Option StorageValue) (at_extrinsic : Option Nat)
  | modifyOp (key : StorageKey) (init : StorageValue) (at_extrinsic : Option Nat)
  | clearOp (p : StorageKey → OverlayedValue → Bool) (at_extrinsic : Option Nat)
  | startOp
  | commitOp
  | rollbackOp

/-- Apply one call; `none` once a panicking call is reached. -/
def applyOp (s : OverlayedChangeSet) : Op → Option OverlayedChangeSet
  | Op.setOp key value e => some (s.set key value e)
  | Op.modifyOp key init e => (s.modify key init e).map (fun r => r.2)
  | Op.clearOp p e => some (s.clear p e)
  | Op.startOp => some s.start_transaction
  | Op.commitOp => s.commit_transaction
  | Op.rollbackOp => s.rollback_transaction

/-- Run a sequence of calls; `none` if any call panics. -/
def run (s : OverlayedChangeSet) : List Op → Option OverlayedChangeSet
  | [] => some s
  | op :: ops =>
    match applyOp s op with
    | none => none
    | some s2 => run s2 ops

/-- The keys of the ordered map appear in strictly increasing
lexicographic order. -/
def SortedKeys (l : List (StorageKey × OverlayedValue)) : Prop :=
  List.Pairwise (fun a b => keyLt a b = true) (l.map Prod.fst)

/-- The cross-entity well-formedness the source maintains between public
calls: a key dirty in the set at distance i from the innermost
transaction has an overlay entry with at least depth − i versions, all
version stacks are non-empty, and each dirty set is duplicate-free. -/
def wf (s : OverlayedChangeSet) : Bool :=
  ((List.range s.dirty_keys.length).all (fun i =>
    ((s.dirty_keys.getD i []).all (fun k =>
      match lookupList k s.changes with
      | some v => decide (s.dirty_keys.length - i ≤ v.transactions.length)
      | none => false)))) &&
  (s.changes.all (fun kv => !kv.2.transactions.isEmpty)) &&
  (s.dirty_keys.all (fun d => decide d.Nodup))

/-- Calls that only ever commit scopes: writes via `set`,
`start_transaction` and `commit_transaction`. -/
def commitOnly : Op → Bool
  | Op.setOp _ _ _ => true
  | Op.startOp => true
  | Op.commitOp => true
  | _ => false

/-- The extrinsic indices recorded by the `set` calls of a trace that
target the given key. -/
def writtenExtr (k : StorageKey) : List Op → List Nat
  | [] => []
  | Op.setOp k2 _ e :: ops => (if k2 = k then extrOf e else []) ++ writtenExtr k ops
  | _ :: ops => writtenExtr k ops

/-- The raw concatenation of the per-version extrinsic sets of a key. -/
def extrUnion (s : OverlayedChangeSet) (k : StorageKey) : List Nat :=
  match lookupList k s.changes with
  | none => []
  | some v => flatE v.transactions

/-- What the `extrinsics()` iterator of a key yields. -/
def extrListOf (s : OverlayedChangeSet) (k : StorageKey) : List Nat :=
  match s.get k with
  | some ov => ov.extrinsics
  | none => []

/-- Record an optional extrinsic index into an ordered set. -/
def extrAddE : Option Nat → List Nat → List Nat
  | none, x => x
  | some e, x => extrInsert e x

/-! ### Lemmas about the list primitives -/

theorem lastOf_append (l : List InnerValue) (a : InnerValue) :
    lastOf (l ++ [a]) = some a := by
  induction l with
  | nil => rfl
  | cons x xs ih =>
    cases xs with
    | nil => rfl
    | cons y ys => simpa [lastOf] using ih

theorem updateLast_append (f : InnerValue → InnerValue) (l : List InnerValue) (a : InnerValue) :
    updateLast f (l ++ [a]) = l ++ [f a] := by
  induction l with
  | nil => rfl
  | cons x xs ih =>
    cases xs with
    | nil => rfl
    | cons y ys => simpa [updateLast] using ih

theorem popLast_append (l : List InnerValue) (a : InnerValue) :
    popLast (l ++ [a]) = some (l, a) := by
  induction l with
  | nil => rfl
  | cons x xs ih =>
    cases xs with
    | nil => rfl
    | cons y ys =>
      show (popLast (y :: ys ++ [a])).map (fun p => (x :: p.1, p.2)) = some (x :: y :: ys, a)
      rw [ih]
      rfl

theorem eq_concat_of_ne_nil {l : List InnerValue} (h : l ≠ []) :
    ∃ init a, l = init ++ [a] := by
  obtain ⟨init, a, h2⟩ := (List.eq_nil_or_concat l).resolve_left h
  exact ⟨init, a, by rw [h2, List.concat_eq_append]⟩

theorem popLast_eq_some {l : List InnerValue} {p : List InnerValue × InnerValue}
    (h : popLast l = some p) : l = p.1 ++ [p.2] := by
  have hne : l ≠ [] := by
    rintro rfl
    simp [popLast] at h
  obtain ⟨init, a, rfl⟩ := eq_concat_of_ne_nil hne
  rw [popLast_append] at h
  cases h
  rfl

theorem exists_popLast {l : List InnerValue} (h : l ≠ []) :
    ∃ p, popLast l = some p := by
  obtain ⟨init, a, rfl⟩ := eq_concat_of_ne_nil h
  exact ⟨(init, a), popLast_append init a⟩

theorem exists_lastOf {l : List InnerValue} (h : l ≠ []) :
    ∃ a, lastOf l = some a := by
  obtain ⟨init, a, rfl⟩ := eq_concat_of_ne_nil h
  exact ⟨a, lastOf_append init a⟩

theorem flatE_append (l1 l2 : List InnerValue) :
    flatE (l1 ++ l2) = flatE l1 ++ flatE l2 := by
  induction l1 with
  | nil => rfl
  | cons x xs ih => simp [flatE, ih]

theorem mem_extrInsert (x e : Nat) (l : List Nat) :
    x ∈ extrInsert e l ↔ x = e ∨ x ∈ l := by
  induction l with
  | nil =>
    simp [extrInsert, eq_comm]
  | cons y ys ih =>
    by_cases h1 : e < y
    · simp [extrInsert, h1, eq_comm]
      try tauto
    · by_cases h2 : e = y
      · subst h2
        simp [extrInsert, h1, eq_comm]
        try tauto
      · simp [extrInsert, h1, h2, ih]
        try tauto

theorem mem_extrExtend (x : Nat) (b m : List Nat) :
    x ∈ extrExtend b m ↔ x ∈ b ∨ x ∈ m := by
  induction m generalizing b with
  | nil => simp [extrExtend]
  | cons y ys ih =>
    show x ∈ extrExtend (extrInsert y b) ys ↔ _
    rw [ih, mem_extrInsert]
    simp
    tauto

theorem mem_extrAddE (x : Nat) (e : Option Nat) (l : List Nat) :
    x ∈ extrAddE e l ↔ x ∈ extrOf e ∨ x ∈ l := by
  cases e with
  | none => simp [extrAddE, extrOf]
  | some e0 => simp [extrAddE, extrOf, mem_extrInsert]

theorem mem_uniqueFirstAux (x : Nat) :
    ∀ (l seen : List Nat), x ∈ uniqueFirstAux seen l ↔ x ∈ l ∧ x ∉ seen := by
  intro l
  induction l with
  | nil => simp [uniqueFirstAux]
  | cons y ys ih =>
    intro seen
    by_cases hy : y ∈ seen
    · rw [uniqueFirstAux, if_pos hy, ih seen]
      constructor
      · rintro ⟨h1, h2⟩
        exact ⟨List.mem_cons_of_mem _ h1, h2⟩
      · rintro ⟨h1, h2⟩
        rcases List.mem_cons.1 h1 with rfl | h1
        · exact absurd hy h2
        · exact ⟨h1, h2⟩
    · rw [uniqueFirstAux, if_neg hy]
      constructor
      · intro h1
        rcases List.mem_cons.1 h1 with rfl | h1
        · exact ⟨List.mem_cons_self _ _, hy⟩
        · obtain ⟨h2, h3⟩ := (ih (y :: seen)).1 h1
          refine ⟨List.mem_cons_of_mem _ h2, fun hc => h3 (List.mem_cons_of_mem _ hc)⟩
      · rintro ⟨h1, h2⟩
        by_cases hxy : x = y
        · subst hxy
          exact List.mem_cons_self _ _
        · rcases List.mem_cons.1 h1 with rfl | h1
          · exact absurd rfl hxy
          · refine List.mem_cons_of_mem _ ((ih (y :: seen)).2 ⟨h1, fun hc => ?_⟩)
            rcases List.mem_cons.1 hc with h | h
            · exact hxy h
            · exact h2 h

theorem nodup_uniqueFirstAux : ∀ (l seen : List Nat), (uniqueFirstAux seen l).Nodup := by
  intro l
  induction l with
  | nil => intro seen; simp [uniqueFirstAux]
  | cons y ys ih =>
    intro seen
    by_cases hy : y ∈ seen
    · rw [uniqueFirstAux, if_pos hy]
      exact ih seen
    · rw [uniqueFirstAux, if_neg hy]
      refine List.Nodup.cons ?_ (ih (y :: seen))
      intro hc
      exact ((mem_uniqueFirstAux y ys (y :: seen)).1 hc).2 (List.mem_cons_self y seen)

theorem mem_uniqueFirst (x : Nat) (l : List Nat) : x ∈ uniqueFirst l ↔ x ∈ l := by
  rw [uniqueFirst, mem_uniqueFirstAux]
  simp

theorem nodup_uniqueFirst (l : List Nat) : (uniqueFirst l).Nodup :=
  nodup_uniqueFirstAux l []

/-! ### Lemmas about the key order -/

theorem keyLt_irrefl : ∀ k : StorageKey, keyLt k k = false := by
  intro k
  induction k with
  | nil => rfl
  | cons a as_ ih => simp [keyLt, ih]

theorem keyLt_trans : ∀ {a b c : StorageKey},
    keyLt a b = true → keyLt b c = true → keyLt a c = true := by
  intro a
  induction a with
  | nil =>
    intro b c hab hbc
    cases b with
    | nil => simp [keyLt] at hab
    | cons y ys =>
      cases c with
      | nil => simp [keyLt] at hbc
      | cons z zs => rfl
  | cons x xs ih =>
    intro b c hab hbc
    cases b with
    | nil => simp [keyLt] at hab
    | cons y ys =>
      cases c with
      | nil => simp [keyLt] at hbc
      | cons z zs =>
        simp only [keyLt] at hab hbc ⊢
        by_cases hxy : x < y
        · by_cases hyz : y < z
          · have : x < z := lt_trans hxy hyz
            simp [this]
          · by_cases hzy : z < y
            · simp [hyz, hzy] at hbc
            · have hyz2 : y = z := by omega
              subst hyz2
              simp [hxy]
        · by_cases hyx : y < x
          · simp [hxy, hyx] at hab
          · have hxy2 : x = y := by omega
            subst hxy2
            simp only [lt_irrefl, if_false] at hab
            by_cases hyz : x < z
            · simp [hyz]
            · by_cases hzy : z < x
              · simp [hyz, hzy] at hbc
              · have : x = z := by omega
                subst this
                simp only [lt_irrefl, if_false] at hbc ⊢
                exact ih hab hbc

theorem keyLt_conn : ∀ {a b : StorageKey},
    keyLt a b = false → keyLt b a = false → a = b := by
  intro a
  induction a with
  | nil =>
    intro b hab _
    cases b with
    | nil => rfl
    | cons y ys => simp [keyLt] at hab
  | cons x xs ih =>
    intro b hab hba
    cases b with
    | nil => simp [keyLt] at hba
    | cons y ys =>
      simp only [keyLt] at hab hba
      by_cases hxy : x < y
      · simp [hxy] at hab
      · by_cases hyx : y < x
        · simp [hyx, hxy] at hba
        · have : x = y := by omega
          subst this
          simp only [lt_irrefl, if_false] at hab hba
          rw [ih hab hba]

theorem keyLt_asymm {a b : StorageKey} (h : keyLt a b = true) : keyLt b a = false := by
  by_contra hc
  have hba : keyLt b a = true := by
    cases h2 : keyLt b a with
    | false => exact absurd h2 hc
    | true => rfl
  have := keyLt_trans h hba
  rw [keyLt_irrefl] at this
  exact Bool.false_ne_true this

theorem keyLt_ne {a b : StorageKey} (h : keyLt a b = true) : a ≠ b := by
  rintro rfl
  rw [keyLt_irrefl] at h
  exact Bool.false_ne_true h

/-! ### Lemmas about the ordered map -/

theorem lookup_setEntry_self (k : StorageKey) (v : OverlayedValue) :
    ∀ l, lookupList k (setEntry k v l) = some v := by
  intro l
  induction l with
  | nil => simp [setEntry, lookupList]
  | cons kv rest ih =>
    by_cases h1 : keyLt k kv.1 = true
    · simp [setEntry, h1, lookupList]
    · by_cases h2 : keyLt kv.1 k = true
      · have hne : k ≠ kv.1 := fun hc => keyLt_ne h2 hc.symm
        simp [setEntry, h1, h2, lookupList, hne, ih]
      · simp [setEntry, h1, h2, lookupList]

theorem setEntry_cons_lt {k : StorageKey} {kv : StorageKey × OverlayedValue}
    {rest : List (StorageKey × OverlayedValue)} (v : OverlayedValue)
    (h : keyLt k kv.1 = true) : setEntry k v (kv :: rest) = (k, v) :: kv :: rest := by
  simp only [setEntry]
  rw [if_pos h]

theorem setEntry_cons_gt {k : StorageKey} {kv : StorageKey × OverlayedValue}
    {rest : List (StorageKey × OverlayedValue)} (v : OverlayedValue)
    (h1 : keyLt k kv.1 = false) (h2 : keyLt kv.1 k = true) :
    setEntry k v (kv :: rest) = kv :: setEntry k v rest := by
  simp only [setEntry]
  rw [if_neg (by simp [h1]), if_pos h2]

theorem setEntry_cons_eq {k : StorageKey} {kv : StorageKey × OverlayedValue}
    {rest : List (StorageKey × OverlayedValue)} (v : OverlayedValue)
    (h1 : keyLt k kv.1 = false) (h2 : keyLt kv.1 k = false) :
    setEntry k v (kv :: rest) = (k, v) :: rest := by
  simp only [setEntry]
  rw [if_neg (by simp [h1]), if_neg (by simp [h2])]

theorem lookup_setEntry_ne (k k2 : StorageKey) (v : OverlayedValue) (hne : k2 ≠ k) :
    ∀ l, lookupList k2 (setEntry k v l) = lookupList k2 l := by
  intro l
  induction l with
  | nil => simp [setEntry, lookupList, hne]
  | cons kv rest ih =>
    cases h1 : keyLt k kv.1 with
    | true =>
      rw [setEntry_cons_lt v h1]
      simp [lookupList, hne]
    | false =>
      cases h2 : keyLt kv.1 k with
      | true =>
        rw [setEntry_cons_gt v h1 h2]
        by_cases h3 : k2 = kv.1
        · simp [lookupList, h3]
        · simp [lookupList, h3, ih]
      | false =>
        have hk : k = kv.1 := keyLt_conn h1 h2
        have h4 : k2 ≠ kv.1 := by rw [← hk]; exact hne
        rw [setEntry_cons_eq v h1 h2]
        simp [lookupList, hne, h4]

theorem lookup_removeKey_ne (k k2 : StorageKey) (hne : k2 ≠ k) :
    ∀ l, lookupList k2 (removeKey k l) = lookupList k2 l := by
  intro l
  induction l with
  | nil => simp [removeKey]
  | cons kv rest ih =>
    by_cases h1 : k = kv.1
    · have h2 : k2 ≠ kv.1 := by rw [← h1]; exact hne
      simp [removeKey, h1, lookupList, h2]
    · by_cases h2 : k2 = kv.1
      · simp [removeKey, h1, lookupList, h2]
      · simp [removeKey, h1, lookupList, h2, ih]

theorem lookup_eq_none_iff (k : StorageKey) :
    ∀ l, lookupList k l = none ↔ k ∉ l.map Prod.fst := by
  intro l
  induction l with
  | nil => simp [lookupList]
  | cons kv rest ih =>
    by_cases h1 : k = kv.1
    · simp [lookupList, h1]
    · simp [lookupList, h1, ih]

theorem mem_fst_setEntry (k x : StorageKey) (v : OverlayedValue) :
    ∀ l, x ∈ (setEntry k v l).map Prod.fst → x = k ∨ x ∈ l.map Prod.fst := by
  intro l
  induction l with
  | nil =>
    intro h
    simp [setEntry] at h
    exact Or.inl h
  | cons kv rest ih =>
    intro h
    cases h1 : keyLt k kv.1 with
    | true =>
      rw [setEntry_cons_lt v h1, List.map_cons, List.map_cons] at h
      rcases List.mem_cons.1 h with h | h
      · exact Or.inl h
      · exact Or.inr h
    | false =>
      cases h2 : keyLt kv.1 k with
      | true =>
        rw [setEntry_cons_gt v h1 h2, List.map_cons] at h
        rcases List.mem_cons.1 h with h | h
        · exact Or.inr (by rw [List.map_cons, h]; exact List.mem_cons_self _ _)
        · rcases ih h with h3 | h3
          · exact Or.inl h3
          · exact Or.inr (by rw [List.map_cons]; exact List.mem_cons_of_mem _ h3)
      | false =>
        rw [setEntry_cons_eq v h1 h2, List.map_cons] at h
        rcases List.mem_cons.1 h with h | h
        · exact Or.inl h
        · exact Or.inr (by rw [List.map_cons]; exact List.mem_cons_of_mem _ h)

theorem removeKey_sublist (k : StorageKey) : ∀ l, (removeKey k l).Sublist l := by
  intro l
  induction l with
  | nil => simp [removeKey]
  | cons kv rest ih =>
    by_cases h1 : k = kv.1
    · simp only [removeKey, h1, if_pos rfl]
      exact (List.sublist_cons_self kv rest)
    · simp only [removeKey, h1, if_false]
      exact List.Sublist.cons₂ kv ih

theorem sorted_setEntry (k : StorageKey) (v : OverlayedValue) :
    ∀ l, SortedKeys l → SortedKeys (setEntry k v l) := by
  intro l
  induction l with
  | nil =>
    intro _
    simp [setEntry, SortedKeys]
  | cons kv rest ih =>
    intro hs
    rw [SortedKeys, List.map_cons, List.pairwise_cons] at hs
    obtain ⟨hhead, htail⟩ := hs
    cases h1 : keyLt k kv.1 with
    | true =>
      rw [SortedKeys, setEntry_cons_lt v h1, List.map_cons, List.map_cons,
        List.pairwise_cons]
      refine ⟨?_, ?_⟩
      · intro b hb
        rcases List.mem_cons.1 hb with rfl | hb
        · exact h1
        · exact keyLt_trans h1 (hhead b hb)
      · rw [List.pairwise_cons]
        exact ⟨hhead, htail⟩
    | false =>
      cases h2 : keyLt kv.1 k with
      | true =>
        rw [SortedKeys, setEntry_cons_gt v h1 h2, List.map_cons, List.pairwise_cons]
        refine ⟨?_, ih htail⟩
        intro b hb
        rcases mem_fst_setEntry k b v rest hb with rfl | hb
        · exact h2
        · exact hhead b hb
      | false =>
        have hk : k = kv.1 := keyLt_conn h1 h2
        rw [SortedKeys, setEntry_cons_eq v h1 h2, List.map_cons, List.pairwise_cons]
        refine ⟨?_, htail⟩
        intro b hb
        rw [hk]
        exact hhead b hb

theorem sorted_removeKey (k : StorageKey) (l : List (StorageKey × OverlayedValue))
    (h : SortedKeys l) : SortedKeys (removeKey k l) :=
  List.Pairwise.sublist (List.Sublist.map Prod.fst (removeKey_sublist k l)) h

/-! ### Characterizations of the version-stack write -/

theorem set_first_true (ov : OverlayedValue) (v : Option StorageValue) (e : Option Nat) :
    ov.set v true e = ⟨ov.transactions ++ [⟨v, extrOf e⟩]⟩ := by
  cases e with
  | none => simp [OverlayedValue.set, extrOf]
  | some e0 =>
    simp [OverlayedValue.set, extrOf, updateLast_append, extrInsert]

theorem set_first_false (ov : OverlayedValue) (v : Option StorageValue) (e : Option Nat)
    (init : List InnerValue) (a : InnerValue) (h : ov.transactions = init ++ [a]) :
    ov.set v false e = ⟨init ++ [⟨v, extrAddE e a.extrinsics⟩]⟩ := by
  have hne : ov.transactions.isEmpty = false := by
    rw [h]
    cases init <;> rfl
  cases e with
  | none =>
    simp [OverlayedValue.set, hne, h, updateLast_append, extrAddE]
  | some e0 =>
    simp [OverlayedValue.set, hne, h, updateLast_append, extrAddE]

theorem set_empty (ov : OverlayedValue) (v : Option StorageValue) (e : Option Nat)
    (h : ov.transactions = []) : ov.set v false e = ⟨[⟨v, extrOf e⟩]⟩ := by
  cases e with
  | none => simp [OverlayedValue.set, h, extrOf]
  | some e0 =>
    simp [OverlayedValue.set, h, extrOf, updateLast, extrInsert]

theorem set_transactions_ne_nil (ov : OverlayedValue) (v : Option StorageValue)
    (b : Bool) (e : Option Nat) : (ov.set v b e).transactions ≠ [] := by
  rcases List.eq_nil_or_concat ov.transactions with hn | ⟨init, a, hc⟩
  · cases b with
    | true => simp [set_first_true, hn]
    | false => simp [set_empty ov v e hn]
  · rw [List.concat_eq_append] at hc
    cases b with
    | true => simp [set_first_true, hc]
    | false =>
      rw [set_first_false ov v e init a hc]
      simp

/-! ### Claim C1 -/

/-- C1: refuted on the code.  The claim says `commit_transaction`
processes every key of the popped dirty set (merging the key when no
enclosing transaction exists and its stack holds more than one
version).  The source instead executes `return` — not `continue` — in
the adopt branch of the loop of `close_transaction`, so the first
adopted key aborts the whole loop.  Here the trace writes key a at
depth 0, opens a transaction, writes b (fresh, later adopted) and a
(needs a merge), and commits: b is adopted and the loop returns, so a
keeps its two unmerged versions although the claim requires its single
merged version holding value 9. -/
theorem c1_code_bug_eval :
    run (OverlayedChangeSet.with_depth 0)
      [Op.setOp [97] (some [1]) none, Op.startOp, Op.setOp [98] (some [2]) none,
       Op.setOp [97] (some [9]) none, Op.commitOp] =
    some { changes := [([97], ⟨[⟨some [1], []⟩, ⟨some [9], []⟩]⟩),
                       ([98], ⟨[⟨some [2], []⟩]⟩)],
           dirty_keys := [] } := by
  decide

/-! ### Claim C2 -/

/-- C2: refuted on the code.  In the final state of the C1 trace —
reached only through depth-respecting calls — the transaction depth is
0 yet key a holds 2 versions, violating the claimed bound
len(versions) ≤ 1 + depth.  The violation is caused by the early
`return` in the commit loop, which leaves key a unprocessed. -/
theorem c2_code_bug_eval :
    ((run (OverlayedChangeSet.with_depth 0)
      [Op.setOp [97] (some [1]) none, Op.startOp, Op.setOp [98] (some [2]) none,
       Op.setOp [97] (some [9]) none, Op.commitOp]).map
      (fun s => ((s.get [97]).map (fun v => v.transactions.length), s.transaction_depth))
      = some (some 2, 0)) ∧ ¬ (2 ≤ 1 + 0) := by
  constructor
  · decide
  · decide

/-! ### Claim C3 -/

/-- C3: refuted on the code.  Starting from the empty changeset, the
write sequence consisting of the single call modify(a, init = [1]) to
the previously-unseen key a, wrapped in start_transaction and
rollback_transaction, does not restore the empty changeset: `modify`
creates the fresh entry with one version and then pushes a clone as
the first write of the transaction, so the rollback pops only the
clone and key a survives with value [1]. -/
theorem c3_code_bug_eval :
    run (OverlayedChangeSet.with_depth 0)
      [Op.startOp, Op.modifyOp [97] [1] none, Op.rollbackOp] =
      some { changes := [([97], ⟨[⟨some [1], []⟩]⟩)], dirty_keys := [] } ∧
    (OverlayedChangeSet.with_depth 0).changes = [] := by
  constructor
  · decide
  · decide

/-! ### Claim C4 -/

/-- C4: confirmed.  `modify(key, init_fn, at_extrinsic)` creates a
single-version entry holding init when the key has no overlay entry
(with the extrinsic index recorded when supplied); then, exactly when
the call is the first write to the key in the current open transaction
(the flag returned by `insert_dirty`), it pushes one version cloning
the current top value and carrying the supplied extrinsic index; in
every other case it pushes nothing and leaves the top value unchanged.
The returned mutable reference targets the top version's value, whose
content is returned here alongside the new state.  The hypothesis
excludes the unreachable states with an empty version stack, on which
the source panics. -/
theorem c4_modify_spec (s : OverlayedChangeSet) (k : StorageKey)
    (init : StorageValue) (e : Option Nat)
    (hne : ∀ ov, s.get k = some ov → ov.transactions ≠ []) :
    (s.modify k init e).isSome ∧
    ∀ ret s2, s.modify k init e = some (ret, s2) →
      (∀ k2, k2 ≠ k → s2.get k2 = s.get k2) ∧
      s2.dirty_keys = (insert_dirty s.dirty_keys k).2 ∧
      (s.get k = none → (insert_dirty s.dirty_keys k).1 = false →
        ret = some init ∧ s2.get k = some ⟨[⟨some init, extrOf e⟩]⟩) ∧
      (s.get k = none → (insert_dirty s.dirty_keys k).1 = true →
        ret = some init ∧
        s2.get k = some ⟨[⟨some init, extrOf e⟩, ⟨some init, extrOf e⟩]⟩) ∧
      (∀ ov top, s.get k = some ov → lastOf ov.transactions = some top →
        ((insert_dirty s.dirty_keys k).1 = true →
          ret = top.value ∧
          s2.get k = some ⟨ov.transactions ++ [⟨top.value, extrOf e⟩]⟩) ∧
        ((insert_dirty s.dirty_keys k).1 = false →
          ret = top.value ∧ s2.get k = some ov)) := by
  have hget : s.get k = lookupList k s.changes := rfl
  rcases hfd : insert_dirty s.dirty_keys k with ⟨b, dk⟩
  cases hlk : lookupList k s.changes with
  | none =>
    cases b with
    | false =>
      have hm : s.modify k init e =
          some (some init,
            { changes := setEntry k ⟨[⟨some init, extrOf e⟩]⟩ s.changes,
              dirty_keys := dk }) := by
        simp [OverlayedChangeSet.modify, hlk, hfd, lastOf]
      refine ⟨by rw [hm]; rfl, ?_⟩
      intro ret s2 hmm
      rw [hm] at hmm
      have h2 := Option.some.inj hmm
      obtain ⟨h3, h4⟩ := Prod.mk.injEq .. ▸ h2
      subst h3
      subst h4
      refine ⟨?_, rfl, ?_, ?_, ?_⟩
      · intro k2 hk2
        exact lookup_setEntry_ne k k2 _ hk2 s.changes
      · intro _ _
        exact ⟨rfl, lookup_setEntry_self k _ s.changes⟩
      · intro _ hc
        simp at hc
      · intro ov top hov _
        rw [hget, hlk] at hov
        cases hov
    | true =>
      have hm : s.modify k init e =
          some (some init,
            { changes := setEntry k ⟨[⟨some init, extrOf e⟩, ⟨some init, extrOf e⟩]⟩ s.changes,
              dirty_keys := dk }) := by
        have hs : OverlayedValue.set ⟨[⟨some init, extrOf e⟩]⟩ (some init) true e =
            ⟨[⟨some init, extrOf e⟩, ⟨some init, extrOf e⟩]⟩ := by
          rw [set_first_true]
          rfl
        simp [OverlayedChangeSet.modify, hlk, hfd, lastOf, hs]
      refine ⟨by rw [hm]; rfl, ?_⟩
      intro ret s2 hmm
      rw [hm] at hmm
      have h2 := Option.some.inj hmm
      obtain ⟨h3, h4⟩ := Prod.mk.injEq .. ▸ h2
      subst h3
      subst h4
      refine ⟨?_, rfl, ?_, ?_, ?_⟩
      · intro k2 hk2
        exact lookup_setEntry_ne k k2 _ hk2 s.changes
      · intro _ hc
        simp at hc
      · intro _ _
        exact ⟨rfl, lookup_setEntry_self k _ s.changes⟩
      · intro ov top hov _
        rw [hget, hlk] at hov
        cases hov
  | some ov =>
    have hone : ov.transactions ≠ [] := hne ov (by rw [hget, hlk])
    obtain ⟨top, htop⟩ := exists_lastOf hone
    cases b with
    | false =>
      have hm : s.modify k init e =
          some (top.value, { changes := setEntry k ov s.changes, dirty_keys := dk }) := by
        simp [OverlayedChangeSet.modify, hlk, hfd, htop]
      refine ⟨by rw [hm]; rfl, ?_⟩
      intro ret s2 hmm
      rw [hm] at hmm
      have h2 := Option.some.inj hmm
      obtain ⟨h3, h4⟩ := Prod.mk.injEq .. ▸ h2
      subst h3
      subst h4
      refine ⟨?_, rfl, ?_, ?_, ?_⟩
      · intro k2 hk2
        exact lookup_setEntry_ne k k2 _ hk2 s.changes
      · intro hc _
        rw [hget, hlk] at hc
        cases hc
      · intro hc _
        rw [hget, hlk] at hc
        cases hc
      · intro ov2 top2 hov2 htop2
        rw [hget, hlk] at hov2
        have hov3 := Option.some.inj hov2
        subst hov3
        rw [htop] at htop2
        have htop3 := Option.some.inj htop2
        subst htop3
        refine ⟨?_, ?_⟩
        · intro hc
          simp at hc
        · intro _
          exact ⟨rfl, lookup_setEntry_self k _ s.changes⟩
    | true =>
      have hm : s.modify k init e =
          some (top.value,
            { changes := setEntry k ⟨ov.transactions ++ [⟨top.value, extrOf e⟩]⟩ s.changes,
              dirty_keys := dk }) := by
        have hs : ov.set top.value true e = ⟨ov.transactions ++ [⟨top.value, extrOf e⟩]⟩ :=
          set_first_true ov top.value e
        simp [OverlayedChangeSet.modify, hlk, hfd, htop, hs, lastOf_append]
      refine ⟨by rw [hm]; rfl, ?_⟩
      intro ret s2 hmm
      rw [hm] at hmm
      have h2 := Option.some.inj hmm
      obtain ⟨h3, h4⟩ := Prod.mk.injEq .. ▸ h2
      subst h3
      subst h4
      refine ⟨?_, rfl, ?_, ?_, ?_⟩
      · intro k2 hk2
        exact lookup_setEntry_ne k k2 _ hk2 s.changes
      · intro hc _
        rw [hget, hlk] at hc
        cases hc
      · intro hc _
        rw [hget, hlk] at hc
        cases hc
      · intro ov2 top2 hov2 htop2
        rw [hget, hlk] at hov2
        have hov3 := Option.some.inj hov2
        subst hov3
        rw [htop] at htop2
        have htop3 := Option.some.inj htop2
        subst htop3
        refine ⟨?_, ?_⟩
        · intro _
          exact ⟨rfl, lookup_setEntry_self k _ s.changes⟩
        · intro hc
          simp at hc

/-- Witness for C4: a state with one open transaction and key 97
present but not yet dirty; modify pushes the rollback clone. -/
theorem c4_modify_spec_witness :
    ((OverlayedChangeSet.mk [([97], ⟨[⟨some [5], []⟩]⟩)] [[]]).modify [97] [1] (some 3)).isSome := by
  refine (c4_modify_spec (OverlayedChangeSet.mk [([97], ⟨[⟨some [5], []⟩]⟩)] [[]])
    [97] [1] (some 3) ?_).1
  intro ov hov
  have h2 : some (⟨[⟨some [5], []⟩]⟩ : OverlayedValue) = some ov := hov
  cases Option.some.inj h2
  decide

/-! ### Claim C6 -/

theorem insert_dirty_fst_congr (dk : List (List StorageKey)) (k k0 : StorageKey)
    (h : k ≠ k0) : (insert_dirty ((insert_dirty dk k0).2) k).1 = (insert_dirty dk k).1 := by
  cases dk with
  | nil => rfl
  | cons top rest =>
    by_cases h0 : k0 ∈ top
    · simp [insert_dirty, h0]
    · by_cases h1 : k ∈ top
      · simp [insert_dirty, h0, h1]
      · have h2 : k ∉ top ++ [k0] := by
          intro hc
          rcases List.mem_append.1 hc with hc | hc
          · exact h1 hc
          · rcases List.mem_singleton.1 hc with rfl
            exact h rfl
        simp [insert_dirty, h0, h1, h2]

theorem clearGo_cons_pos {p : StorageKey → OverlayedValue → Bool} {e : Option Nat}
    {kv : StorageKey × OverlayedValue} {rest : List (StorageKey × OverlayedValue)}
    {dk : List (List StorageKey)} (hp : p kv.1 kv.2 = true) :
    clearGo p e (kv :: rest) dk =
      ((kv.1, kv.2.set none (insert_dirty dk kv.1).1 e) ::
          (clearGo p e rest (insert_dirty dk kv.1).2).1,
        (clearGo p e rest (insert_dirty dk kv.1).2).2) := by
  simp only [clearGo]
  rw [if_pos hp]

theorem clearGo_cons_neg {p : StorageKey → OverlayedValue → Bool} {e : Option Nat}
    {kv : StorageKey × OverlayedValue} {rest : List (StorageKey × OverlayedValue)}
    {dk : List (List StorageKey)} (hp : p kv.1 kv.2 = false) :
    clearGo p e (kv :: rest) dk =
      (kv :: (clearGo p e rest dk).1, (clearGo p e rest dk).2) := by
  simp only [clearGo]
  rw [if_neg (by simp [hp])]

theorem clearGo_fst (p : StorageKey → OverlayedValue → Bool) (e : Option Nat) :
    ∀ l dk, ((clearGo p e l dk).1).map Prod.fst = l.map Prod.fst := by
  intro l
  induction l with
  | nil => intro dk; rfl
  | cons kv rest ih =>
    intro dk
    cases hp : p kv.1 kv.2 with
    | true =>
      rw [clearGo_cons_pos hp, List.map_cons, List.map_cons, ih]
    | false =>
      rw [clearGo_cons_neg hp, List.map_cons, List.map_cons, ih]

theorem clearGo_lookup (p : StorageKey → OverlayedValue → Bool) (e : Option Nat) :
    ∀ l dk k v, lookupList k l = some v →
      lookupList k (clearGo p e l dk).1 =
        some (if p k v then v.set none (insert_dirty dk k).1 e else v) := by
  intro l
  induction l with
  | nil =>
    intro dk k v h
    simp [lookupList] at h
  | cons kv rest ih =>
    intro dk k v h
    by_cases hk : k = kv.1
    · rw [lookupList, if_pos hk] at h
      have hv := Option.some.inj h
      cases hp : p kv.1 kv.2 with
      | true =>
        rw [clearGo_cons_pos hp, lookupList, if_pos hk, ← hv, hk, if_pos hp]
      | false =>
        rw [clearGo_cons_neg hp, lookupList, if_pos hk, ← hv, hk,
          if_neg (by simp [hp])]
    · rw [lookupList, if_neg hk] at h
      cases hp : p kv.1 kv.2 with
      | true =>
        rw [clearGo_cons_pos hp, lookupList, if_neg hk, ih _ k v h,
          insert_dirty_fst_congr _ k kv.1 hk]
      | false =>
        rw [clearGo_cons_neg hp, lookupList, if_neg hk, ih _ k v h]

/-- C6: confirmed.  `clear(predicate, at_extrinsic)` tombstones (writes
an absent value, with the same push-or-overwrite rule as `set` and the
same first-write flag from `insert_dirty`) exactly the overlay entries
satisfying the predicate; non-matching overlay entries are returned
unchanged, the key set of the overlay is unchanged, and keys with no
overlay entry still have none afterwards. -/
theorem c6_clear_spec (s : OverlayedChangeSet) (p : StorageKey → OverlayedValue → Bool)
    (e : Option Nat) :
    ((s.clear p e).changes.map Prod.fst = s.changes.map Prod.fst) ∧
    (∀ k v, s.get k = some v →
      (s.clear p e).get k =
        some (if p k v then v.set none (insert_dirty s.dirty_keys k).1 e else v)) ∧
    (∀ k, s.get k = none → (s.clear p e).get k = none) := by
  refine ⟨clearGo_fst p e s.changes s.dirty_keys, ?_, ?_⟩
  · intro k v h
    exact clearGo_lookup p e s.changes s.dirty_keys k v h
  · intro k h
    rw [OverlayedChangeSet.get, lookup_eq_none_iff] at h ⊢
    rw [OverlayedChangeSet.clear]
    intro hc
    rw [clearGo_fst] at hc
    exact h hc

/-- Witness for C6: a depth-0 overlay with keys 97 and 98; the
predicate matches only 97, which is tombstoned in place. -/
theorem c6_clear_spec_witness :
    ((OverlayedChangeSet.mk [([97], ⟨[⟨some [1], []⟩]⟩), ([98], ⟨[⟨some [2], []⟩]⟩)] []).clear
        (fun k _ => decide (k = [97])) (some 7)).get [97] =
      some (OverlayedValue.set ⟨[⟨some [1], []⟩]⟩ none false (some 7)) := by
  have h := (c6_clear_spec
    (OverlayedChangeSet.mk [([97], ⟨[⟨some [1], []⟩]⟩), ([98], ⟨[⟨some [2], []⟩]⟩)] [])
    (fun k _ => decide (k = [97])) (some 7)).2.1 [97] ⟨[⟨some [1], []⟩]⟩ rfl
  simpa using h

/-! ### Claim C10 -/

theorem closeGo_frame (b : Bool) :
    ∀ (keys : List StorageKey) (s s2 : OverlayedChangeSet),
      closeGo b keys s = some s2 →
      ∀ k, k ∉ keys → lookupList k s2.changes = lookupList k s.changes := by
  intro keys
  induction keys with
  | nil =>
    intro s s2 h k _
    cases Option.some.inj h
    rfl
  | cons key keys ih =>
    intro s s2 h k hk
    have hkne : k ≠ key := fun hc => hk (hc ▸ List.mem_cons_self key keys)
    have hkrest : k ∉ keys := fun hc => hk (List.mem_cons_of_mem key hc)
    rw [closeGo] at h
    split at h
    · exact absurd h (by simp)
    · rename_i value hlk
      split at h
      · -- rollback branch
        split at h
        · exact absurd h (by simp)
        · rename_i td hpl
          dsimp only at h
          split at h
          · rw [ih _ s2 h k hkrest]
            exact lookup_removeKey_ne key k hkne s.changes
          · rw [ih _ s2 h k hkrest]
            exact lookup_setEntry_ne key k ⟨td.1⟩ hkne s.changes
      · -- commit branch
        try dsimp only at h
        split at h
        · cases Option.some.inj h
          rfl
        · split at h
          · exact absurd h (by simp)
          · rename_i td hpl
            split at h
            · exact absurd h (by simp)
            · rename_i iv ivs htd
              try dsimp only at h
              rw [ih _ s2 h k hkrest]
              exact lookup_setEntry_ne key k _ hkne s.changes

/-- C10: confirmed.  When a transaction is closed — by commit or by
rollback — every key outside the popped (innermost) dirty set keeps
exactly its previous overlay entry (same version stack, values and
extrinsic sets); only keys dirty in the closing scope can change or
disappear. -/
theorem c10_frame (s : OverlayedChangeSet) (top : List StorageKey)
    (rest : List (List StorageKey)) (h : s.dirty_keys = top :: rest) :
    (∀ s2, s.commit_transaction = some s2 →
      ∀ k, k ∉ top → s2.get k = s.get k) ∧
    (∀ s2, s.rollback_transaction = some s2 →
      ∀ k, k ∉ top → s2.get k = s.get k) := by
  constructor
  · intro s2 hc k hk
    rw [OverlayedChangeSet.commit_transaction, OverlayedChangeSet.close_transaction, h] at hc
    exact closeGo_frame false top _ s2 hc k hk
  · intro s2 hc k hk
    rw [OverlayedChangeSet.rollback_transaction, OverlayedChangeSet.close_transaction, h] at hc
    exact closeGo_frame true top _ s2 hc k hk

/-- Witness for C10: committing a transaction whose dirty set is {97}
leaves the untouched key 98 exactly as it was. -/
theorem c10_frame_witness :
    ((OverlayedChangeSet.mk
        [([97], ⟨[⟨some [1], []⟩, ⟨some [9], []⟩]⟩), ([98], ⟨[⟨some [2], []⟩]⟩)]
        [[[97]]]).commit_transaction).isSome ∧
    ∀ s2, (OverlayedChangeSet.mk
        [([97], ⟨[⟨some [1], []⟩, ⟨some [9], []⟩]⟩), ([98], ⟨[⟨some [2], []⟩]⟩)]
        [[[97]]]).commit_transaction = some s2 →
      s2.get [98] = some ⟨[⟨some [2], []⟩]⟩ := by
  constructor
  · decide
  · intro s2 hc
    have h2 := (c10_frame
      (OverlayedChangeSet.mk
        [([97], ⟨[⟨some [1], []⟩, ⟨some [9], []⟩]⟩), ([98], ⟨[⟨some [2], []⟩]⟩)]
        [[[97]]]) [[97]] [] rfl).1 s2 hc [98] (by decide)
    rw [h2]
    rfl

/-! ### Claim C8 -/

theorem find_gt_spec (k : StorageKey) :
    ∀ l : List (StorageKey × OverlayedValue),
      List.Pairwise (fun a b => keyLt a b = true) (l.map Prod.fst) →
      (∀ k2 v, l.find? (fun kv => keyLt k kv.1) = some (k2, v) →
        keyLt k k2 = true ∧ lookupList k2 l = some v ∧
        ∀ k3 ∈ l.map Prod.fst, keyLt k k3 = true → k2 = k3 ∨ keyLt k2 k3 = true) ∧
      (l.find? (fun kv => keyLt k kv.1) = none →
        ∀ k3 ∈ l.map Prod.fst, keyLt k k3 = false) := by
  intro l
  induction l with
  | nil =>
    intro _
    constructor
    · intro k2 v hf
      simp at hf
    · intro _ k3 hk3
      simp at hk3
  | cons kv rest ih =>
    intro hs
    rw [List.map_cons, List.pairwise_cons] at hs
    obtain ⟨hhead, htail⟩ := hs
    obtain ⟨ih1, ih2⟩ := ih htail
    cases hp : keyLt k kv.1 with
    | true =>
      have hf : (kv :: rest).find? (fun kv2 => keyLt k kv2.1) = some kv :=
        List.find?_cons_of_pos rest hp
      constructor
      · intro k2 v hf2
        rw [hf] at hf2
        have h2 := Option.some.inj hf2
        have hk2 : kv.1 = k2 := by rw [h2]
        have hv : kv.2 = v := by rw [h2]
        refine ⟨by rw [← hk2]; exact hp, ?_, ?_⟩
        · rw [lookupList, if_pos hk2.symm, hv]
        · intro k3 hk3 _
          rcases List.mem_cons.1 hk3 with rfl | hk3
          · exact Or.inl hk2.symm
          · exact Or.inr (by rw [← hk2]; exact hhead k3 hk3)
      · intro hf2
        rw [hf] at hf2
        cases hf2
    | false =>
      have hf : (kv :: rest).find? (fun kv2 => keyLt k kv2.1) =
          rest.find? (fun kv2 => keyLt k kv2.1) :=
        List.find?_cons_of_neg rest (by simp [hp])
      constructor
      · intro k2 v hf2
        rw [hf] at hf2
        obtain ⟨h1, h2, h3⟩ := ih1 k2 v hf2
        have hk2ne : k2 ≠ kv.1 := by
          rintro rfl
          rw [h1] at hp
          cases hp
        refine ⟨h1, ?_, ?_⟩
        · rw [lookupList, if_neg hk2ne]
          exact h2
        · intro k3 hk3 hgt
          rcases List.mem_cons.1 hk3 with rfl | hk3
          · rw [hgt] at hp
            cases hp
          · exact h3 k3 hk3 hgt
      · intro hf2 k3 hk3
        rw [hf] at hf2
        rcases List.mem_cons.1 hk3 with rfl | hk3
        · exact hp
        · exact ih2 hf2 k3 hk3

/-- C8: confirmed.  On a changeset whose map is sorted (the invariant
the BTreeMap maintains), `next_change(K)` returns an entry of the map
whose key is strictly greater than K and minimal among all keys of the
map strictly greater than K, and returns nothing exactly when the map
holds no key strictly greater than K. -/
theorem c8_next_change (s : OverlayedChangeSet) (k : StorageKey)
    (h : SortedKeys s.changes) :
    (∀ k2 v, s.next_change k = some (k2, v) →
      keyLt k k2 = true ∧ s.get k2 = some v ∧
      ∀ k3 ∈ s.changes.map Prod.fst, keyLt k k3 = true → k2 = k3 ∨ keyLt k2 k3 = true) ∧
    (s.next_change k = none → ∀ k3 ∈ s.changes.map Prod.fst, keyLt k k3 = false) :=
  find_gt_spec k s.changes h

/-- Witness for C8: in the two-key overlay {97, 99}, the next change
after 97 is the entry of 99. -/
theorem c8_next_change_witness :
    keyLt [97] [99] = true ∧
    (OverlayedChangeSet.mk [([97], ⟨[⟨some [1], []⟩]⟩), ([99], ⟨[⟨some [2], []⟩]⟩)] []).get [99] =
      some ⟨[⟨some [2], []⟩]⟩ := by
  have h := (c8_next_change
    (OverlayedChangeSet.mk [([97], ⟨[⟨some [1], []⟩]⟩), ([99], ⟨[⟨some [2], []⟩]⟩)] [])
    [97] (by rw [SortedKeys]; decide)).1 [99] ⟨[⟨some [2], []⟩]⟩ rfl
  exact ⟨h.1, h.2.1⟩

/-! ### Claim C9 -/

theorem sorted_set (s : OverlayedChangeSet) (k : StorageKey) (v : Option StorageValue)
    (e : Option Nat) (h : SortedKeys s.changes) : SortedKeys (s.set k v e).changes :=
  sorted_setEntry k _ s.changes h

theorem sorted_modify (s : OverlayedChangeSet) (k : StorageKey) (init : StorageValue)
    (e : Option Nat) (ret : Option StorageValue) (s2 : OverlayedChangeSet)
    (hm : s.modify k init e = some (ret, s2)) (h : SortedKeys s.changes) :
    SortedKeys s2.changes := by
  rw [OverlayedChangeSet.modify] at hm
  split at hm
  · cases hm
  · split at hm
    · cases hm
    · have h2 := congrArg Prod.snd (Option.some.inj hm)
      dsimp only at h2
      rw [← h2]
      exact sorted_setEntry k _ s.changes h

theorem sorted_clear (s : OverlayedChangeSet) (p : StorageKey → OverlayedValue → Bool)
    (e : Option Nat) (h : SortedKeys s.changes) : SortedKeys (s.clear p e).changes := by
  rw [SortedKeys, OverlayedChangeSet.clear]
  rw [clearGo_fst]
  exact h

theorem closeGo_sorted (b : Bool) :
    ∀ (keys : List StorageKey) (s s2 : OverlayedChangeSet),
      closeGo b keys s = some s2 → SortedKeys s.changes → SortedKeys s2.changes := by
  intro keys
  induction keys with
  | nil =>
    intro s s2 h hs
    cases Option.some.inj h
    exact hs
  | cons key keys ih =>
    intro s s2 h hs
    rw [closeGo] at h
    split at h
    · exact absurd h (by simp)
    · rename_i value hlk
      split at h
      · split at h
        · exact absurd h (by simp)
        · rename_i td hpl
          dsimp only at h
          split at h
          · exact ih _ s2 h (sorted_removeKey key s.changes hs)
          · exact ih _ s2 h (sorted_setEntry key ⟨td.1⟩ s.changes hs)
      · try dsimp only at h
        split at h
        · cases Option.some.inj h
          exact hs
        · split at h
          · exact absurd h (by simp)
          · rename_i td hpl
            split at h
            · exact absurd h (by simp)
            · rename_i iv ivs htd
              try dsimp only at h
              exact ih _ s2 h (sorted_setEntry key _ s.changes hs)

theorem applyOp_sorted (s s2 : OverlayedChangeSet) (op : Op)
    (h : applyOp s op = some s2) (hs : SortedKeys s.changes) : SortedKeys s2.changes := by
  cases op with
  | setOp k v e =>
    cases Option.some.inj h
    exact sorted_set s k v e hs
  | modifyOp k init e =>
    rw [applyOp] at h
    cases hm : s.modify k init e with
    | none => rw [hm] at h; cases h
    | some r =>
      rw [hm] at h
      have h2 : r.2 = s2 := Option.some.inj h
      rw [← h2]
      exact sorted_modify s k init e r.1 r.2 (by rw [← hm]) hs
  | clearOp p e =>
    cases Option.some.inj h
    exact sorted_clear s p e hs
  | startOp =>
    cases Option.some.inj h
    exact hs
  | commitOp =>
    rw [applyOp, OverlayedChangeSet.commit_transaction,
      OverlayedChangeSet.close_transaction] at h
    split at h
    · cases h
    · exact closeGo_sorted false _ _ s2 h hs
  | rollbackOp =>
    rw [applyOp, OverlayedChangeSet.rollback_transaction,
      OverlayedChangeSet.close_transaction] at h
    split at h
    · cases h
    · exact closeGo_sorted true _ _ s2 h hs

theorem run_sorted : ∀ (ops : List Op) (s s2 : OverlayedChangeSet),
    run s ops = some s2 → SortedKeys s.changes → SortedKeys s2.changes := by
  intro ops
  induction ops with
  | nil =>
    intro s s2 h hs
    cases Option.some.inj h
    exact hs
  | cons op ops ih =>
    intro s s2 h hs
    rw [run] at h
    cases ha : applyOp s op with
    | none => rw [ha] at h; cases h
    | some s3 =>
      rw [ha] at h
      exact ih s3 s2 h (applyOp_sorted s s3 op ha hs)

theorem drainGo_fst :
    ∀ l out, drainGo l = some out → out.map Prod.fst = l.map Prod.fst := by
  intro l
  induction l with
  | nil =>
    intro out h
    cases Option.some.inj h
    rfl
  | cons kv rest ih =>
    intro out h
    rw [drainGo] at h
    split at h
    · cases h
    · rename_i t hlast
      cases hd : drainGo rest with
      | none => rw [hd] at h; cases h
      | some r =>
        rw [hd] at h
        have h2 := Option.some.inj h
        rw [← h2, List.map_cons, List.map_cons, ih r hd]

/-- C9: confirmed.  From a changeset constructed by `with_depth` (in
particular the empty one), any sequence of calls that does not panic
yields a map whose keys are pairwise strictly increasing in
lexicographic order, and `drain_commited`, when it succeeds, yields its
pairs with keys in the same strictly increasing order. -/
theorem c9_sorted_iteration (n : Nat) (ops : List Op) (s : OverlayedChangeSet)
    (h : run (OverlayedChangeSet.with_depth n) ops = some s) :
    SortedKeys s.changes ∧
    ∀ out, s.drain_commited = some out →
      List.Pairwise (fun a b => keyLt a b = true) (out.map Prod.fst) := by
  have hs : SortedKeys s.changes := by
    refine run_sorted ops _ s h ?_
    rw [SortedKeys, OverlayedChangeSet.with_depth]
    simp
  refine ⟨hs, ?_⟩
  intro out hd
  rw [OverlayedChangeSet.drain_commited] at hd
  split at hd
  · rw [drainGo_fst s.changes out hd]
    exact hs
  · cases hd

/-- Witness for C9: keys inserted in the order 99, 97 come back out
sorted as 97, 99. -/
theorem c9_sorted_iteration_witness :
    SortedKeys [([97], ⟨[⟨some [1], []⟩]⟩), ([99], ⟨[⟨some [2], []⟩]⟩)] :=
  (c9_sorted_iteration 0
    [Op.setOp [99] (some [2]) none, Op.setOp [97] (some [1]) none]
    (OverlayedChangeSet.mk [([97], ⟨[⟨some [1], []⟩]⟩), ([99], ⟨[⟨some [2], []⟩]⟩)] [])
    (by decide)).1

/-! ### Claim C5 -/

theorem wf_top (s : OverlayedChangeSet) (h : wf s = true) (top : List StorageKey)
    (rest : List (List StorageKey)) (hd : s.dirty_keys = top :: rest) :
    ∀ k ∈ top, ∃ v, lookupList k s.changes = some v ∧
      rest.length + 1 ≤ v.transactions.length := by
  intro k hk
  rw [wf] at h
  simp only [Bool.and_eq_true] at h
  obtain ⟨⟨hA, _⟩, _⟩ := h
  rw [List.all_eq_true] at hA
  have h0 := hA 0 (by
    rw [List.mem_range, hd]
    simp)
  rw [hd] at h0
  simp only [List.getD_cons_zero] at h0
  rw [List.all_eq_true] at h0
  have h1 := h0 k hk
  split at h1
  · rename_i v hv
    refine ⟨v, hv, ?_⟩
    have h2 := of_decide_eq_true h1
    simpa using h2
  · cases h1

theorem wf_stacks (s : OverlayedChangeSet) (h : wf s = true) :
    ∀ kv ∈ s.changes, kv.2.transactions ≠ [] := by
  intro kv hkv
  rw [wf] at h
  simp only [Bool.and_eq_true] at h
  obtain ⟨⟨_, hB⟩, _⟩ := h
  rw [List.all_eq_true] at hB
  have h1 := hB kv hkv
  intro hc
  rw [hc] at h1
  simp at h1

theorem wf_nodup (s : OverlayedChangeSet) (h : wf s = true) (top : List StorageKey)
    (rest : List (List StorageKey)) (hd : s.dirty_keys = top :: rest) : top.Nodup := by
  rw [wf] at h
  simp only [Bool.and_eq_true] at h
  obtain ⟨_, hC⟩ := h
  rw [List.all_eq_true] at hC
  have h1 := hC top (by rw [hd]; exact List.mem_cons_self _ _)
  exact of_decide_eq_true h1

theorem closeGo_rollback_isSome :
    ∀ (keys : List StorageKey) (s : OverlayedChangeSet), keys.Nodup →
      (∀ k ∈ keys, ∃ v, lookupList k s.changes = some v ∧ v.transactions ≠ []) →
      (closeGo true keys s).isSome := by
  intro keys
  induction keys with
  | nil =>
    intro s _ _
    rfl
  | cons key keys ih =>
    intro s hnd hyp
    obtain ⟨v, hlk, hne⟩ := hyp key (List.mem_cons_self _ _)
    obtain ⟨td, hpl⟩ := exists_popLast hne
    rw [List.nodup_cons] at hnd
    obtain ⟨hkn, hnd2⟩ := hnd
    have hrest : ∀ (f : List (StorageKey × OverlayedValue) → List (StorageKey × OverlayedValue)),
        (∀ k2, k2 ≠ key → lookupList k2 (f s.changes) = lookupList k2 s.changes) →
        ∀ k ∈ keys, ∃ v2, lookupList k (f s.changes) = some v2 ∧ v2.transactions ≠ [] := by
      intro f hf k hk
      obtain ⟨v2, hl2, hne2⟩ := hyp k (List.mem_cons_of_mem _ hk)
      have hkne : k ≠ key := fun hc => hkn (hc ▸ hk)
      exact ⟨v2, by rw [hf k hkne]; exact hl2, hne2⟩
    by_cases he : td.1.isEmpty = true
    · simp only [closeGo, hlk, hpl, he, if_true]
      exact ih _ hnd2 (hrest (removeKey key)
        (fun k2 hkne => lookup_removeKey_ne key k2 hkne s.changes))
    · simp only [closeGo, hlk, hpl, he, if_false]
      exact ih _ hnd2 (hrest (setEntry key ⟨td.1⟩)
        (fun k2 hkne => lookup_setEntry_ne key k2 ⟨td.1⟩ hkne s.changes))

theorem closeGo_commit_isSome :
    ∀ (keys : List StorageKey) (s : OverlayedChangeSet), keys.Nodup →
      (∀ k ∈ keys, ∃ v, lookupList k s.changes = some v ∧ v.transactions ≠ [] ∧
        (2 ≤ v.transactions.length ∨
          (match s.dirty_keys with
            | parent :: _ => k ∉ parent
            | [] => v.transactions.length = 1))) →
      (closeGo false keys s).isSome := by
  intro keys
  induction keys with
  | nil =>
    intro s _ _
    rfl
  | cons key keys ih =>
    intro s hnd hyp
    obtain ⟨v, hlk, hne, hdisj⟩ := hyp key (List.mem_cons_self _ _)
    rw [List.nodup_cons] at hnd
    obtain ⟨hkn, hnd2⟩ := hnd
    have hmerge : 2 ≤ v.transactions.length →
        ∀ (pdk : List (List StorageKey)),
          (∀ k ∈ keys, ∃ v2,
            lookupList k (s.changes) = some v2 ∧ v2.transactions ≠ [] ∧
            (2 ≤ v2.transactions.length ∨
              (match pdk with
                | parent :: _ => k ∉ parent
                | [] => v2.transactions.length = 1))) →
          ∃ td iv ivs, popLast v.transactions = some td ∧ td.1 = iv :: ivs ∧
            (closeGo false keys
              { changes := setEntry key
                  ⟨updateLast (fun cur =>
                    ⟨td.2.value, extrExtend cur.extrinsics td.2.extrinsics⟩) (iv :: ivs)⟩
                  s.changes,
                dirty_keys := pdk }).isSome := by
      intro hlen pdk hyp2
      obtain ⟨td, hpl⟩ := exists_popLast hne
      have hdecomp := popLast_eq_some hpl
      have htdlen : 1 ≤ td.1.length := by
        have : v.transactions.length = td.1.length + 1 := by
          rw [hdecomp]
          simp
        omega
      cases htd : td.1 with
      | nil =>
        rw [htd] at htdlen
        simp at htdlen
      | cons iv ivs =>
        refine ⟨td, iv, ivs, hpl, htd, ?_⟩
        refine ih _ hnd2 ?_
        intro k hk
        obtain ⟨v2, hl2, hne2, hd2⟩ := hyp2 k hk
        have hkne : k ≠ key := fun hc => hkn (hc ▸ hk)
        exact ⟨v2, by
          rw [lookup_setEntry_ne key k _ hkne]
          exact hl2, hne2, hd2⟩
    cases hdk : s.dirty_keys with
    | cons parent rest2 =>
      by_cases hp : key ∈ parent
      · have hlen : 2 ≤ v.transactions.length := by
          rcases hdisj with h2 | h2
          · exact h2
          · rw [hdk] at h2
            exact absurd hp h2
        have hyp2 : ∀ k ∈ keys, ∃ v2,
            lookupList k s.changes = some v2 ∧ v2.transactions ≠ [] ∧
            (2 ≤ v2.transactions.length ∨
              (match parent :: rest2 with
                | parent :: _ => k ∉ parent
                | [] => v2.transactions.length = 1)) := by
          intro k hk
          obtain ⟨v2, hl2, hne2, hd2⟩ := hyp k (List.mem_cons_of_mem _ hk)
          rw [hdk] at hd2
          exact ⟨v2, hl2, hne2, hd2⟩
        obtain ⟨td, iv, ivs, hpl, htd, hrec⟩ := hmerge hlen (parent :: rest2) hyp2
        simp only [closeGo, hlk, hdk, insert_dirty, hp, if_true, if_false, hpl, htd]
        exact hrec
      · simp only [closeGo, hlk, hdk, insert_dirty, hp, if_false, if_true]
        rfl
    | nil =>
      cases hb : v.transactions.length == 1 with
      | true =>
        simp only [closeGo, hlk, hdk, hb, if_true]
        rfl
      | false =>
        have hne1 : v.transactions.length ≠ 1 := by
          intro hc
          rw [hc] at hb
          simp at hb
        have hge1 : 1 ≤ v.transactions.length := by
          cases hvt : v.transactions with
          | nil => exact absurd hvt hne
          | cons a r => simp
        have hlen : 2 ≤ v.transactions.length := by omega
        have hyp2 : ∀ k ∈ keys, ∃ v2,
            lookupList k s.changes = some v2 ∧ v2.transactions ≠ [] ∧
            (2 ≤ v2.transactions.length ∨
              (match ([] : List (List StorageKey)) with
                | parent :: _ => k ∉ parent
                | [] => v2.transactions.length = 1)) := by
          intro k hk
          obtain ⟨v2, hl2, hne2, hd2⟩ := hyp k (List.mem_cons_of_mem _ hk)
          rw [hdk] at hd2
          exact ⟨v2, hl2, hne2, hd2⟩
        obtain ⟨td, iv, ivs, hpl, htd, hrec⟩ := hmerge hlen [] hyp2
        simp only [closeGo, hlk, hdk, hb, if_false, hpl, htd]
        exact hrec

theorem drainGo_isSome :
    ∀ l, (∀ kv ∈ l, kv.2.transactions ≠ []) → (drainGo l).isSome := by
  intro l
  induction l with
  | nil =>
    intro _
    rfl
  | cons kv rest ih =>
    intro hyp
    obtain ⟨a, hla⟩ := exists_lastOf (hyp kv (List.mem_cons_self _ _))
    have h2 := ih (fun kv2 hkv2 => hyp kv2 (List.mem_cons_of_mem _ hkv2))
    cases hd : drainGo rest with
    | none =>
      rw [hd] at h2
      cases h2
    | some r =>
      simp only [drainGo, hla, hd]
      rfl

/-- C5: confirmed.  On a well-formed changeset, `commit_transaction`
and `rollback_transaction` panic exactly when no transaction is open,
and `drain_commited` panics exactly when one still is; whereas reading
a never-written key, setting any key (present value or tombstone),
querying `next_change` past the last key, and `is_empty` on an empty
changeset are total success paths returning absent or empty results. -/
theorem c5_failure_semantics (s : OverlayedChangeSet) (h : wf s = true) :
    (s.commit_transaction = none ↔ s.transaction_depth = 0) ∧
    (s.rollback_transaction = none ↔ s.transaction_depth = 0) ∧
    (s.drain_commited = none ↔ s.transaction_depth ≠ 0) ∧
    (∀ k, k ∉ s.changes.map Prod.fst → s.get k = none) ∧
    (∀ k v e, ((s.set k v e).get k).isSome) ∧
    (∀ k, (∀ k3 ∈ s.changes.map Prod.fst, keyLt k k3 = false) → s.next_change k = none) ∧
    (s.changes = [] → s.is_empty = true) := by
  have hcommit : s.transaction_depth ≠ 0 → (s.commit_transaction).isSome := by
    intro hdep
    cases hdk : s.dirty_keys with
    | nil =>
      rw [OverlayedChangeSet.transaction_depth, hdk] at hdep
      simp at hdep
    | cons top rest =>
      rw [OverlayedChangeSet.commit_transaction, OverlayedChangeSet.close_transaction, hdk]
      refine closeGo_commit_isSome top _ (wf_nodup s h top rest hdk) ?_
      intro k hk
      obtain ⟨v, hlk, hlen⟩ := wf_top s h top rest hdk k hk
      have hne : v.transactions ≠ [] := by
        intro hc
        rw [hc] at hlen
        simp at hlen
      refine ⟨v, hlk, hne, ?_⟩
      cases rest with
      | nil =>
        by_cases h1 : v.transactions.length = 1
        · exact Or.inr h1
        · refine Or.inl ?_
          have : 1 ≤ v.transactions.length := by simpa using hlen
          omega
      | cons parent rest2 =>
        by_cases hp : k ∈ parent
        · refine Or.inl ?_
          have : (parent :: rest2).length + 1 ≤ v.transactions.length := hlen
          have h2 : 2 ≤ (parent :: rest2).length + 1 := by simp
          omega
        · exact Or.inr hp
  have hrollback : s.transaction_depth ≠ 0 → (s.rollback_transaction).isSome := by
    intro hdep
    cases hdk : s.dirty_keys with
    | nil =>
      rw [OverlayedChangeSet.transaction_depth, hdk] at hdep
      simp at hdep
    | cons top rest =>
      rw [OverlayedChangeSet.rollback_transaction, OverlayedChangeSet.close_transaction, hdk]
      refine closeGo_rollback_isSome top _ (wf_nodup s h top rest hdk) ?_
      intro k hk
      obtain ⟨v, hlk, hlen⟩ := wf_top s h top rest hdk k hk
      refine ⟨v, hlk, ?_⟩
      intro hc
      rw [hc] at hlen
      simp at hlen
  refine ⟨?_, ?_, ?_, ?_, ?_, ?_, ?_⟩
  · constructor
    · intro hnone
      by_contra hdep
      have h2 := hcommit hdep
      rw [hnone] at h2
      cases h2
    · intro hdep
      rw [OverlayedChangeSet.transaction_depth] at hdep
      have hdk := List.length_eq_zero.1 hdep
      rw [OverlayedChangeSet.commit_transaction, OverlayedChangeSet.close_transaction, hdk]
  · constructor
    · intro hnone
      by_contra hdep
      have h2 := hrollback hdep
      rw [hnone] at h2
      cases h2
    · intro hdep
      rw [OverlayedChangeSet.transaction_depth] at hdep
      have hdk := List.length_eq_zero.1 hdep
      rw [OverlayedChangeSet.rollback_transaction, OverlayedChangeSet.close_transaction, hdk]
  · constructor
    · intro hnone
      intro hdep
      rw [OverlayedChangeSet.drain_commited] at hnone
      rw [if_pos (by simp [hdep])] at hnone
      have h2 := drainGo_isSome s.changes (wf_stacks s h)
      rw [hnone] at h2
      cases h2
    · intro hdep
      rw [OverlayedChangeSet.drain_commited, if_neg (by simpa using hdep)]
  · intro k hk
    rw [OverlayedChangeSet.get, lookup_eq_none_iff]
    exact hk
  · intro k v e
    rw [OverlayedChangeSet.get, OverlayedChangeSet.set]
    rw [lookup_setEntry_self]
    rfl
  · intro k hk
    rw [OverlayedChangeSet.next_change]
    rw [List.find?_eq_none]
    intro kv hkv
    have h2 := hk kv.1 (List.mem_map_of_mem Prod.fst hkv)
    simp [h2]
  · intro hc
    rw [OverlayedChangeSet.is_empty, hc]
    rfl

/-- Witness for C5: a well-formed changeset with one open transaction
whose dirty set is {97}; commit succeeds (depth is not 0), drain
panics, and reading an unknown key returns nothing. -/
theorem c5_failure_semantics_witness :
    ((OverlayedChangeSet.mk [([97], ⟨[⟨some [1], []⟩, ⟨some [2], []⟩]⟩)] [[[97]]]).commit_transaction
        = none ↔
      (OverlayedChangeSet.mk [([97], ⟨[⟨some [1], []⟩, ⟨some [2], []⟩]⟩)] [[[97]]]).transaction_depth
        = 0) ∧
    ((OverlayedChangeSet.mk [([97], ⟨[⟨some [1], []⟩, ⟨some [2], []⟩]⟩)] [[[97]]]).drain_commited
        = none ↔
      (OverlayedChangeSet.mk [([97], ⟨[⟨some [1], []⟩, ⟨some [2], []⟩]⟩)] [[[97]]]).transaction_depth
        ≠ 0) ∧
    (OverlayedChangeSet.mk [([97], ⟨[⟨some [1], []⟩, ⟨some [2], []⟩]⟩)] [[[97]]]).get [5] = none := by
  have h := c5_failure_semantics
    (OverlayedChangeSet.mk [([97], ⟨[⟨some [1], []⟩, ⟨some [2], []⟩]⟩)] [[[97]]]) (by decide)
  exact ⟨h.1, h.2.2.1, h.2.2.2.1 [5] (by decide)⟩

/-! ### Claim C7 -/

theorem flatE_set_mem (ov : OverlayedValue) (v : Option StorageValue) (first : Bool)
    (e : Option Nat) (x : Nat) :
    x ∈ flatE ((ov.set v first e).transactions) ↔
      x ∈ flatE ov.transactions ∨ x ∈ extrOf e := by
  cases first with
  | true =>
    rw [set_first_true]
    show x ∈ flatE (ov.transactions ++ [⟨v, extrOf e⟩]) ↔ _
    rw [flatE_append]
    simp [flatE]
  | false =>
    rcases List.eq_nil_or_concat ov.transactions with hn | ⟨init, a, hc⟩
    · rw [set_empty ov v e hn, hn]
      simp [flatE, extrOf]
    · rw [List.concat_eq_append] at hc
      rw [set_first_false ov v e init a hc, hc]
      show x ∈ flatE (init ++ [⟨v, extrAddE e a.extrinsics⟩]) ↔
        x ∈ flatE (init ++ [a]) ∨ x ∈ extrOf e
      rw [flatE_append, flatE_append]
      simp only [flatE, List.append_nil, List.mem_append, mem_extrAddE]
      tauto

theorem set_extrUnion (s : OverlayedChangeSet) (k2 : StorageKey) (v : Option StorageValue)
    (e : Option Nat) (k : StorageKey) (x : Nat) :
    x ∈ extrUnion (s.set k2 v e) k ↔
      x ∈ extrUnion s k ∨ (k = k2 ∧ x ∈ extrOf e) := by
  by_cases hk : k = k2
  · subst hk
    rw [extrUnion, OverlayedChangeSet.set]
    rw [lookup_setEntry_self]
    rw [flatE_set_mem]
    rw [extrUnion]
    cases hlk : lookupList k s.changes with
    | none =>
      simp [flatE]
    | some ov =>
      simp only [Option.getD_some]
      simp
      try tauto
  · rw [extrUnion, OverlayedChangeSet.set]
    rw [lookup_setEntry_ne k2 k _ hk]
    rw [extrUnion]
    simp [hk]

theorem closeGo_commit_extr :
    ∀ (keys : List StorageKey) (s s2 : OverlayedChangeSet),
      closeGo false keys s = some s2 →
      ∀ k x, x ∈ extrUnion s2 k ↔ x ∈ extrUnion s k := by
  intro keys
  induction keys with
  | nil =>
    intro s s2 h k x
    cases Option.some.inj h
    exact Iff.rfl
  | cons key keys ih =>
    intro s s2 h k x
    rw [closeGo] at h
    split at h
    · exact absurd h (by simp)
    · rename_i value hlk
      rw [if_neg (by simp)] at h
      try dsimp only at h
      split at h
      · cases Option.some.inj h
        exact Iff.rfl
      · split at h
        · exact absurd h (by simp)
        · rename_i td hpl
          split at h
          · exact absurd h (by simp)
          · rename_i iv ivs htd
            try dsimp only at h
            rw [ih _ s2 h k x]
            by_cases hk : k = key
            · subst hk
              simp only [extrUnion, lookup_setEntry_self, hlk]
              have hvt : value.transactions = (iv :: ivs) ++ [td.2] := by
                have h2 := popLast_eq_some hpl
                rw [htd] at h2
                exact h2
              obtain ⟨init2, a2, hi⟩ := eq_concat_of_ne_nil (l := iv :: ivs) (by simp)
              rw [hvt, hi, updateLast_append]
              rw [flatE_append, flatE_append, flatE_append]
              simp only [flatE, List.append_nil, List.mem_append, mem_extrExtend]
              tauto
            · have h2 := lookup_setEntry_ne key k
                ⟨updateLast (fun cur =>
                  ⟨td.2.value, extrExtend cur.extrinsics td.2.extrinsics⟩) (iv :: ivs)⟩
                hk s.changes
              simp only [extrUnion, h2]

theorem run_extr :
    ∀ (ops : List Op) (s s2 : OverlayedChangeSet),
      (∀ op ∈ ops, commitOnly op = true) → run s ops = some s2 →
      ∀ k x, x ∈ extrUnion s2 k ↔ (x ∈ extrUnion s k ∨ x ∈ writtenExtr k ops) := by
  intro ops
  induction ops with
  | nil =>
    intro s s2 _ h k x
    cases Option.some.inj h
    simp [writtenExtr]
  | cons op ops ih =>
    intro s s2 hco h k x
    have hco2 : ∀ op2 ∈ ops, commitOnly op2 = true :=
      fun op2 h2 => hco op2 (List.mem_cons_of_mem _ h2)
    have hcoh := hco op (List.mem_cons_self _ _)
    rw [run] at h
    cases op with
    | setOp k2 v e =>
      have h2 : run (s.set k2 v e) ops = some s2 := h
      rw [ih _ s2 hco2 h2 k x, set_extrUnion]
      have hw : writtenExtr k (Op.setOp k2 v e :: ops) =
          (if k2 = k then extrOf e else []) ++ writtenExtr k ops := rfl
      rw [hw, List.mem_append]
      by_cases hk : k = k2
      · subst hk
        simp
        try tauto
      · have hk2 : ¬(k2 = k) := fun hc => hk hc.symm
        simp [hk, hk2]
        try tauto
    | modifyOp k2 init e => simp [commitOnly] at hcoh
    | clearOp p e => simp [commitOnly] at hcoh
    | rollbackOp => simp [commitOnly] at hcoh
    | startOp =>
      have h2 : run s.start_transaction ops = some s2 := h
      rw [ih _ s2 hco2 h2 k x]
      exact Iff.rfl
    | commitOp =>
      have h2 : (match s.commit_transaction with
          | none => (none : Option OverlayedChangeSet)
          | some s4 => run s4 ops) = some s2 := h
      cases ha : s.commit_transaction with
      | none =>
        rw [ha] at h2
        exact absurd h2 (by simp)
      | some s3 =>
        rw [ha] at h2
        have h3 : run s3 ops = some s2 := h2
        rw [ih _ s2 hco2 h3 k x]
        rw [OverlayedChangeSet.commit_transaction, OverlayedChangeSet.close_transaction] at ha
        split at ha
        · exact absurd ha (by simp)
        · rename_i top rest hdk
          have hce := closeGo_commit_extr top _ s3 ha k x
          rw [hce]
          exact Iff.rfl

/-- C7: confirmed.  Start from the empty changeset and run any panic-free
sequence of writes (`set`), `start_transaction` and `commit_transaction`
calls ending at depth zero.  For every key, the `extrinsics()` iterator
of its overlayed value then yields exactly the set of extrinsic indices
recorded by the writes to that key — every written index appears, no
other index appears, and no index appears twice.  Commits preserve the
set because merging extends the predecessor's extrinsic set with the
popped one, and the iterator de-duplicates across versions. -/
theorem c7_extrinsic_union (ops : List Op) (s : OverlayedChangeSet)
    (hco : ∀ op ∈ ops, commitOnly op = true)
    (hrun : run (OverlayedChangeSet.with_depth 0) ops = some s)
    (_hdep : s.transaction_depth = 0) :
    ∀ k, (∀ x, x ∈ extrListOf s k ↔ x ∈ writtenExtr k ops) ∧ (extrListOf s k).Nodup := by
  intro k
  have hre := run_extr ops _ s hco hrun k
  constructor
  · intro x
    have h2 := hre x
    have hempty : x ∈ extrUnion (OverlayedChangeSet.with_depth 0) k ↔ False := by
      simp [extrUnion, OverlayedChangeSet.with_depth, lookupList]
    rw [hempty] at h2
    simp only [false_or] at h2
    cases hg : s.get k with
    | none =>
      have hg2 : lookupList k s.changes = none := hg
      have h3 : x ∈ extrUnion s k ↔ False := by
        simp [extrUnion, hg2]
      rw [h3] at h2
      simp only [extrListOf, hg]
      rw [← h2]
      simp
    | some ov =>
      have hg2 : lookupList k s.changes = some ov := hg
      have h3 : x ∈ extrUnion s k ↔ x ∈ flatE ov.transactions := by
        simp [extrUnion, hg2]
      rw [h3] at h2
      simp only [extrListOf, hg]
      rw [OverlayedValue.extrinsics, mem_uniqueFirst]
      exact h2
  · cases hg : s.get k with
    | none =>
      simp only [extrListOf, hg]
      exact List.nodup_nil
    | some ov =>
      simp only [extrListOf, hg]
      exact nodup_uniqueFirst _

/-- Witness for C7: key 97 written with index 0 at depth 0 and index 1
inside a committed transaction; after the commit its extrinsics are
exactly the duplicate-free set containing 0 and 1. -/
theorem c7_extrinsic_union_witness :
    (extrListOf (OverlayedChangeSet.mk [([97], ⟨[⟨some [2], [0, 1]⟩]⟩)] []) [97]).Nodup ∧
    (1 ∈ extrListOf (OverlayedChangeSet.mk [([97], ⟨[⟨some [2], [0, 1]⟩]⟩)] []) [97] ↔
      1 ∈ writtenExtr [97]
        [Op.setOp [97] (some [1]) (some 0), Op.startOp,
         Op.setOp [97] (some [2]) (some 1), Op.commitOp]) := by
  have h := c7_extrinsic_union
    [Op.setOp [97] (some [1]) (some 0), Op.startOp,
     Op.setOp [97] (some [2]) (some 1), Op.commitOp]
    (OverlayedChangeSet.mk [([97], ⟨[⟨some [2], [0, 1]⟩]⟩)] [])
    (by decide) (by decide) (by decide)
  exact ⟨(h [97]).2, (h [97]).1 1⟩
